import Mathlib

/-!
Shallow embedding of `src/crypto/hashes/src/pow_hashers.rs` (the FishHash
proof-of-work engine and its word-addressable buffer layer) and proofs of the
specification claims about it.

Modelling conventions:
* Byte buffers (`Hash256`/`Hash512`/`Hash1024`, all `[u8; n]`) are `List Nat`
  whose elements are byte values; fixed sizes are tracked by length facts.
* Machine integers are `Nat` with explicit `% 2 ^ 32` / `% 2 ^ 64` at the
  points where Rust (release-profile, overflow checks off) wraps.
* The external cryptographic primitives (`tiny_keccak::Keccak::v512` and the
  two blake3 entry points) live in third-party crates, so every definition is
  parameterised by them as opaque byte functions; no claim below depends on
  their concrete values.
-/

namespace PowHashers

/-- Byte strings: each element is one byte (values `< 256` at every producer). -/
abbrev Bytes := List Nat

/-- Little-endian byte encoding of `v` into exactly `w` bytes, truncating at
`256 ^ w` exactly as storing into a `w`-byte machine word does. -/
def leBytes : Nat → Nat → Bytes
  | 0, _ => []
  | w + 1, v => v % 256 :: leBytes w (v / 256)

/-- Little-endian decoding of a byte string (`u32::from_le_bytes` /
`u64::from_le_bytes` on the 4- or 8-byte slices cut below). -/
def fromLe : Bytes → Nat
  | [] => 0
  | b :: l => b + 256 * fromLe l

/-- `HashData::get_as_u32` / `get_as_u64`: read the `w`-byte little-endian word
at byte offset `w * i` (source: `self.as_bytes()[index*w .. index*w + w]`). -/
def getWord (w : Nat) (b : Bytes) (i : Nat) : Nat :=
  fromLe ((b.drop (w * i)).take w)

/-- `HashData::set_as_u32` / `set_as_u64`: overwrite the `w` bytes at offset
`w * i` with the little-endian bytes of `v` (source: `copy_from_slice`). -/
def setWord (w : Nat) (b : Bytes) (i v : Nat) : Bytes :=
  b.take (w * i) ++ leBytes w v ++ b.drop (w * i + w)

/-- `dst[off .. off + src.len()].copy_from_slice(src)`. -/
def writeRange (b : Bytes) (off : Nat) (s : Bytes) : Bytes :=
  b.take off ++ s ++ b.drop (off + s.length)

def FNV_PRIME : Nat := 0x01000193
def FULL_DATASET_ITEM_PARENTS : Nat := 512
def NUM_DATASET_ACCESSES : Nat := 32
def LIGHT_CACHE_ROUNDS : Nat := 3
def LIGHT_CACHE_NUM_ITEMS : Nat := 1179641
def FULL_DATASET_NUM_ITEMS : Nat := 37748717

/-- The fixed 32-byte seed constant `SEED`. -/
def SEED : Bytes :=
  [0xeb, 0x01, 0x63, 0xae, 0xf2, 0xab, 0x1c, 0x5a,
   0x66, 0x31, 0x0c, 0x1c, 0x14, 0xd6, 0x0f, 0x42,
   0x55, 0xa9, 0xb3, 0x9b, 0x0e, 0xdf, 0x26, 0x53,
   0x98, 0x44, 0xf1, 0x17, 0xad, 0x67, 0x21, 0x19]

/-- `Hash512::new()`: 64 zero bytes. -/
def zero512 : Bytes := List.replicate 64 0

/-- `Hash1024::new()`: 128 zero bytes. -/
def zero1024 : Bytes := List.replicate 128 0

/-- `Hash256::new()`: 32 zero bytes. -/
def zero256 : Bytes := List.replicate 32 0

/-- The `BitXor` impl for `&Hash512`: byte-wise XOR over all 64 positions. -/
def xor512 (a b : Bytes) : Bytes :=
  (List.range 64).map fun k => (a.getD k 0) ^^^ (b.getD k 0)

/-- `Hash1024::from_512s(first, second)`: copy `first` into bytes `0..64` and
`second` into bytes `64..128` of a zeroed 128-byte buffer. -/
def from_512s (a b : Bytes) : Bytes :=
  writeRange (writeRange zero1024 0 a) 64 b

/-- `Context`: the light cache and the optional lazily-filled full dataset. -/
structure Context where
  light_cache : List Bytes
  full_dataset : Option (List Bytes)

namespace PowFishHash

/-- `PowFishHash::fnv1`: `(u * FNV_PRIME) ^ v` on `u32`, the multiply wrapping
at `2 ^ 32` (release-profile semantics of the source's plain `*`). -/
def fnv1 (u v : Nat) : Nat := ((u * FNV_PRIME) % 2 ^ 32) ^^^ v

/-- `PowFishHash::fnv1_512`: apply `fnv1` on each of the 16 32-bit words of two
`Hash512`s, writing into a fresh zeroed buffer. -/
def fnv1_512 (u v : Bytes) : Bytes :=
  (List.range 16).foldl
    (fun r i => setWord 4 r i (fnv1 (getWord 4 u i) (getWord 4 v i))) zero512

/-- One iteration of the `FULL_DATASET_ITEM_PARENTS` loop in
`calculate_dataset_item_1024`, acting on the `(mix0, mix1)` pair. -/
def datasetParentsStep (lc : List Bytes) (seed0 seed1 : Nat)
    (st : Bytes × Bytes) (j : Nat) : Bytes × Bytes :=
  let t0 := fnv1 (seed0 ^^^ j) (getWord 4 st.1 (j % 16))
  let t1 := fnv1 (seed1 ^^^ j) (getWord 4 st.2 (j % 16))
  (fnv1_512 st.1 (lc.getD (t0 % LIGHT_CACHE_NUM_ITEMS) zero512),
   fnv1_512 st.2 (lc.getD (t1 % LIGHT_CACHE_NUM_ITEMS) zero512))

/-- `PowFishHash::calculate_dataset_item_1024`, parameterised by the 64-byte
`keccak` primitive (`PowFishHash::keccak_in_place`). -/
def calculate_dataset_item_1024 (keccak : Bytes → Bytes) (lc : List Bytes)
    (index : Nat) : Bytes :=
  let seed0 := (index * 2) % 2 ^ 32
  let seed1 := (seed0 + 1) % 2 ^ 32
  let mix0a := lc.getD (seed0 % LIGHT_CACHE_NUM_ITEMS) zero512
  let mix1a := lc.getD (seed1 % LIGHT_CACHE_NUM_ITEMS) zero512
  let mix0b := setWord 4 mix0a 0 ((getWord 4 mix0a 0) ^^^ seed0)
  let mix1b := setWord 4 mix1a 0 ((getWord 4 mix1a 0) ^^^ seed1)
  let mix0c := keccak mix0b
  let mix1c := keccak mix1b
  let res := (List.range FULL_DATASET_ITEM_PARENTS).foldl
    (datasetParentsStep lc seed0 seed1) (mix0c, mix1c)
  from_512s (keccak res.1) (keccak res.2)

/-- `PowFishHash::lookup`: with a full dataset, a zero first 64-bit word marks
an unfilled slot, which is filled with the derived item; without one the item
is always recomputed. Returns the item and the (possibly updated) context. -/
def lookup (keccak : Bytes → Bytes) (ctx : Context) (index : Nat) :
    Bytes × Context :=
  match ctx.full_dataset with
  | some dataset =>
      let item := dataset.getD index zero1024
      if getWord 8 item 0 = 0 then
        let d := calculate_dataset_item_1024 keccak ctx.light_cache index
        (d, { ctx with full_dataset := some (dataset.set index d) })
      else
        (item, ctx)
  | none => (calculate_dataset_item_1024 keccak ctx.light_cache index, ctx)

end PowFishHash

/-- The sequential chaining phase of `Context::build_light_cache`: the first
entry is `item` and each later entry hashes the previous one in place
(`keccak_in_place`); `n` entries are produced in total. -/
def lightInit (keccak : Bytes → Bytes) : Bytes → Nat → List Bytes
  | _, 0 => []
  | item, n + 1 => item :: lightInit keccak (keccak item) n

/-- One of the `LIGHT_CACHE_ROUNDS` in-place passes of
`Context::build_light_cache`. The second index uses the source's `u32`
wrapping arithmetic `N.wrapping_add(i.wrapping_sub(1)) % N`. -/
def lightRound (keccak : Bytes → Bytes) (cache : List Bytes) : List Bytes :=
  (List.range LIGHT_CACHE_NUM_ITEMS).foldl
    (fun c i =>
      let t := getWord 4 (c.getD i zero512) 0
      let v := t % LIGHT_CACHE_NUM_ITEMS
      let w := ((LIGHT_CACHE_NUM_ITEMS + ((i + (2 ^ 32 - 1)) % 2 ^ 32)) % 2 ^ 32)
        % LIGHT_CACHE_NUM_ITEMS
      c.set i (keccak (xor512 (c.getD v zero512) (c.getD w zero512))))
    cache

/-- `Context::build_light_cache` over the caller-supplied buffer: chain-fill
the first `min length N` entries (entries past `N` would be left untouched by
the source's `take(N)`), then run the three mixing passes. -/
def Context.build_light_cache (keccak : Bytes → Bytes) (cache : List Bytes) :
    List Bytes :=
  (List.range LIGHT_CACHE_ROUNDS).foldl (fun c _ => lightRound keccak c)
    (lightInit keccak (keccak SEED) (min cache.length LIGHT_CACHE_NUM_ITEMS)
      ++ cache.drop LIGHT_CACHE_NUM_ITEMS)

/-- `Context::new`: build the light cache over a zeroed `N`-entry buffer and,
when requested, allocate the zero-initialised full dataset. -/
def Context.new (keccak : Bytes → Bytes) (full : Bool) : Context :=
  { light_cache := Context.build_light_cache keccak
      (List.replicate LIGHT_CACHE_NUM_ITEMS zero512)
    full_dataset :=
      if full then some (List.replicate FULL_DATASET_NUM_ITEMS zero1024)
      else none }

namespace PowFishHash

/-- The `fetch1` modification loop of `fishhash_kernel`:
`fetch1[j] = fnv1(mix[j], fetch1[j])` over the 32 32-bit words. -/
def fetchModify (mix fetch1 : Bytes) : Bytes :=
  (List.range 32).foldl
    (fun f j => setWord 4 f j (fnv1 (getWord 4 mix j) (getWord 4 f j))) fetch1

/-- The `fetch2` modification loop of `fishhash_kernel`:
`fetch2[j] = mix[j] ^ fetch2[j]` over the 32 32-bit words. -/
def fetchXor (mix fetch2 : Bytes) : Bytes :=
  (List.range 32).foldl
    (fun f j => setWord 4 f j ((getWord 4 mix j) ^^^ (getWord 4 f j))) fetch2

/-- The new-mix loop of `fishhash_kernel`: for each of the 16 64-bit words,
`mix[j] = fetch0[j] * fetch1[j] + fetch2[j]` with both operations wrapping at
`2 ^ 64` (release-profile semantics of the source's `u64` `*` and `+`). -/
def mixUpdate (fetch0 fetch1 fetch2 mix : Bytes) : Bytes :=
  (List.range 16).foldl
    (fun m j => setWord 8 m j
      (((getWord 8 fetch0 j * getWord 8 fetch1 j) % 2 ^ 64
        + getWord 8 fetch2 j) % 2 ^ 64))
    mix

/-- One of the 32 rounds of `fishhash_kernel`: three dataset lookups at the
indices read from `mix`, the two fetch-modification loops, and the wrapping
multiply-add recombination. -/
def kernelRound (keccak : Bytes → Bytes) (st : Bytes × Context) :
    Bytes × Context :=
  let mix := st.1
  let p0 := getWord 4 mix 0 % FULL_DATASET_NUM_ITEMS
  let p1 := getWord 4 mix 4 % FULL_DATASET_NUM_ITEMS
  let p2 := getWord 4 mix 8 % FULL_DATASET_NUM_ITEMS
  let r0 := lookup keccak st.2 p0
  let r1 := lookup keccak r0.2 p1
  let r2 := lookup keccak r1.2 p2
  (mixUpdate r0.1 (fetchModify mix r1.1) (fetchXor mix r2.1) mix, r2.2)

/-- The final 4-to-1 collapse of `fishhash_kernel`: fold each group of four
32-bit words of `mix` through `fnv1` into one word of the 32-byte result. -/
def collapse (mix : Bytes) : Bytes :=
  ((List.range 8).map (· * 4)).foldl
    (fun h i =>
      let h1 := fnv1 (getWord 4 mix i) (getWord 4 mix (i + 1))
      let h2 := fnv1 h1 (getWord 4 mix (i + 2))
      let h3 := fnv1 h2 (getWord 4 mix (i + 3))
      setWord 4 h (i / 4) h3)
    zero256

/-- `PowFishHash::fishhash_kernel`: 32 rounds over the `seed ‖ seed` mix,
then the collapse. -/
def fishhash_kernel (keccak : Bytes → Bytes) (ctx : Context) (seed : Bytes) :
    Bytes × Context :=
  let st := (List.range NUM_DATASET_ACCESSES).foldl
    (fun s _ => kernelRound keccak s) (from_512s seed seed, ctx)
  (collapse st.1, st.2)

/-- `PowFishHash::hash`, parameterised by the external blake3 primitives:
`blakeXof` models reading 64 bytes from `blake3::Hasher::finalize_xof` into
the zeroed seed buffer, `blake3` models the final `blake3::hash`. -/
def hash (keccak blakeXof blake3 : Bytes → Bytes) (ctx : Context)
    (header : Bytes) : Bytes × Context :=
  let seed := blakeXof header
  let kr := fishhash_kernel keccak ctx seed
  let final_data := writeRange (writeRange (List.replicate 96 0) 0 seed) 64 kr.1
  (blake3 final_data, kr.2)

end PowFishHash

/-! ### Spec-side reference and proof-side definitions -/

/-- Reference pass over the light cache, following the spec's words (§4.3):
for every index `i` in increasing order, `v` is the first little-endian 32-bit
word of the current `cache[i]` mod `N`, `w = (N + i - 1) mod N` (the previous
index, wrapping at 0), and `cache[i]` is overwritten with the hash of
`cache[v] XOR cache[w]`, reading entries already updated in the same pass. -/
def lightRoundRef (keccak : Bytes → Bytes) (cache : List Bytes) : List Bytes :=
  (List.range LIGHT_CACHE_NUM_ITEMS).foldl
    (fun c i =>
      let t := getWord 4 (c.getD i zero512) 0
      let v := t % LIGHT_CACHE_NUM_ITEMS
      let w := (LIGHT_CACHE_NUM_ITEMS + i - 1) % LIGHT_CACHE_NUM_ITEMS
      c.set i (keccak (xor512 (c.getD v zero512) (c.getD w zero512))))
    cache

/-- Reference light-cache sequence, following the spec's words (§4.3): entry 0
is the hash of the fixed seed and entry `i` the hash of entry `i-1`
(equivalently the `(i+1)`-fold hash of the seed), followed by exactly 3
reference passes. -/
def lightCacheRef (keccak : Bytes → Bytes) : List Bytes :=
  (List.range LIGHT_CACHE_ROUNDS).foldl (fun c _ => lightRoundRef keccak c)
    ((List.range LIGHT_CACHE_NUM_ITEMS).map fun i => keccak^[i] (keccak SEED))

/-- The memoization invariant of the full dataset: every slot is still in its
all-zero initial state or holds exactly the derived item for its index. -/
def DatasetInv (keccak : Bytes → Bytes) (lc ds : List Bytes) : Prop :=
  ∀ j, ds.getD j zero1024 = zero1024
    ∨ ds.getD j zero1024 = PowFishHash.calculate_dataset_item_1024 keccak lc j

/-- A sequence of `lookup` calls made only for their effect on the context
(the way `fishhash_kernel` threads the context through its fetches). -/
def runLookups (keccak : Bytes → Bytes) (ctx : Context) (l : List Nat) :
    Context :=
  l.foldl (fun c i => (PowFishHash.lookup keccak c i).2) ctx

/-! ### Word-access layer: basic lemmas -/

theorem length_leBytes (w v : Nat) : (leBytes w v).length = w := by
  induction w generalizing v with
  | zero => rfl
  | succ w ih => simp [leBytes, ih]

theorem fromLe_leBytes (w v : Nat) : fromLe (leBytes w v) = v % 256 ^ w := by
  induction w generalizing v with
  | zero => simp [leBytes, fromLe, Nat.mod_one]
  | succ w ih =>
    rw [pow_succ', Nat.mod_mul]
    simp [leBytes, fromLe, ih]

theorem length_setWord {w i : Nat} (v : Nat) {b : Bytes}
    (h : w * i + w ≤ b.length) : (setWord w b i v).length = b.length := by
  simp [setWord, length_leBytes]
  omega

theorem getWord_setWord_self {w i : Nat} (v : Nat) {b : Bytes}
    (h : w * i + w ≤ b.length) :
    getWord w (setWord w b i v) i = v % 256 ^ w := by
  unfold getWord setWord
  rw [List.append_assoc,
    List.drop_left' (by simp; omega : (b.take (w * i)).length = w * i),
    List.take_left' (length_leBytes w v), fromLe_leBytes]

theorem getElem?_setWord_outside {w i k : Nat} (v : Nat) {b : Bytes}
    (h : w * i + w ≤ b.length) (hk : k < w * i ∨ w * i + w ≤ k) :
    (setWord w b i v)[k]? = b[k]? := by
  unfold setWord
  rcases hk with hk | hk
  · rw [List.append_assoc,
      List.getElem?_append_left (by simp; omega), List.getElem?_take_of_lt hk]
  · rw [List.getElem?_append_right (by simp [length_leBytes]; omega)]
    rw [List.getElem?_drop]
    congr 1
    simp [length_leBytes]
    omega

theorem getD_setWord_outside {w i k : Nat} (v : Nat) {b : Bytes}
    (h : w * i + w ≤ b.length) (hk : k < w * i ∨ w * i + w ≤ k) :
    (setWord w b i v).getD k 0 = b.getD k 0 := by
  simp only [List.getD_eq_getElem?_getD, getElem?_setWord_outside v h hk]

theorem fromLe_eq_sum (l : Bytes) :
    fromLe l = ∑ m ∈ Finset.range l.length, l.getD m 0 * 256 ^ m := by
  induction l with
  | nil => simp [fromLe]
  | cons a l ih =>
    rw [List.length_cons, Finset.sum_range_succ']
    simp only [List.getD_cons_succ, List.getD_cons_zero, pow_zero, mul_one,
      pow_succ']
    rw [fromLe, ih, Finset.mul_sum, Nat.add_comm]
    congr 1
    exact Finset.sum_congr rfl fun x _ => by ring

theorem getWord_eq_sum {w i : Nat} {b : Bytes} (h : w * i + w ≤ b.length) :
    getWord w b i = ∑ m ∈ Finset.range w, b.getD (w * i + m) 0 * 256 ^ m := by
  unfold getWord
  rw [fromLe_eq_sum]
  have hlen : ((b.drop (w * i)).take w).length = w := by simp; omega
  rw [hlen]
  refine Finset.sum_congr rfl fun m hm => ?_
  have hmw : m < w := Finset.mem_range.mp hm
  simp only [List.getD_eq_getElem?_getD, List.getElem?_take_of_lt hmw,
    List.getElem?_drop]

theorem getWord_setWord_ne {w i j : Nat} (v : Nat) {b : Bytes}
    (hij : i ≠ j) (hi : w * i + w ≤ b.length) (hj : w * j + w ≤ b.length) :
    getWord w (setWord w b i v) j = getWord w b j := by
  rw [getWord_eq_sum (by rw [length_setWord v hi]; exact hj),
    getWord_eq_sum hj]
  refine Finset.sum_congr rfl fun m hm => ?_
  have hmw : m < w := Finset.mem_range.mp hm
  rw [getD_setWord_outside v hi]
  rcases Nat.lt_or_ge i j with hlt | hge
  · right
    have : w * i + w ≤ w * j := by
      calc w * i + w = w * (i + 1) := by ring
        _ ≤ w * j := Nat.mul_le_mul_left w hlt
    omega
  · have hlt : j < i := Nat.lt_of_le_of_ne hge (by omega)
    left
    have : w * j + w ≤ w * i := by
      calc w * j + w = w * (j + 1) := by ring
        _ ≤ w * i := Nat.mul_le_mul_left w hlt
    omega

/-! ### Generic fold lemmas -/

theorem foldl_congr_mem {α β : Type} {f g : β → α → β} :
    ∀ (l : List α) (b : β), (∀ x ∈ l, ∀ acc, f acc x = g acc x) →
      l.foldl f b = l.foldl g b := by
  intro l
  induction l with
  | nil => intro b _; rfl
  | cons a l ih =>
    intro b h
    rw [List.foldl_cons, List.foldl_cons, h a (by simp)]
    exact ih _ fun x hx acc => h x (by simp [hx]) acc

theorem foldl_invariant {α β : Type} {P : β → Prop} {f : β → α → β} :
    ∀ (l : List α) (b : β), P b → (∀ x ∈ l, ∀ acc, P acc → P (f acc x)) →
      P (l.foldl f b) := by
  intro l
  induction l with
  | nil => intro b hb _; exact hb
  | cons a l ih =>
    intro b hb h
    exact ih _ (h a (by simp) b hb) fun x hx acc hacc => h x (by simp [hx]) acc hacc

/-- A fold that writes word `j := g j` for each `j < n` (the value not reading
the accumulator) ends with word `j` holding `g j`, truncated to `w` bytes, and
keeps the buffer length. -/
theorem foldl_setWord_spec {w : Nat} (g : Nat → Nat) :
    ∀ (n : Nat) (b : Bytes), w * n ≤ b.length →
      ((List.range n).foldl (fun m j => setWord w m j (g j)) b).length = b.length
      ∧ ∀ j < n,
          getWord w ((List.range n).foldl (fun m j => setWord w m j (g j)) b) j
            = g j % 256 ^ w := by
  intro n
  induction n with
  | zero => intro b _; exact ⟨rfl, fun j hj => absurd hj (Nat.not_lt_zero j)⟩
  | succ n ih =>
    intro b hb
    rw [Nat.mul_succ] at hb
    have hb' : w * n ≤ b.length := by omega
    obtain ⟨ihlen, ihword⟩ := ih b hb'
    have hrange : w * n + w ≤
        ((List.range n).foldl (fun m j => setWord w m j (g j)) b).length := by
      rw [ihlen]; omega
    rw [List.range_succ, List.foldl_append, List.foldl_cons, List.foldl_nil]
    refine ⟨by rw [length_setWord _ hrange, ihlen], fun j hj => ?_⟩
    rcases Nat.lt_or_ge j n with hlt | hge
    · rw [getWord_setWord_ne _ (by omega) hrange
        (by rw [ihlen]; calc w * j + w = w * (j + 1) := by ring
              _ ≤ w * n := Nat.mul_le_mul_left w hlt
              _ ≤ b.length := hb')]
      exact ihword j hlt
    · have hjn : j = n := by omega
      subst hjn
      exact getWord_setWord_self _ hrange

/-! ### C9 and C3 -/

/-- C9: on the byte-buffer word-access layer (`HashData`), for word width `w`
(4 for `get_as_u32`/`set_as_u32`, 8 for `get_as_u64`/`set_as_u64`) and an
in-range word index, reading word `i` right after writing `v` there returns
`v`; the write keeps the buffer length and changes no byte outside offsets
`w*i .. w*i+w`; and the word encoding is little-endian (byte `m` of the word
carries weight `256 ^ m`). -/
theorem hashdata_word_access (b : Bytes) (i v w : Nat) (_hw : w = 4 ∨ w = 8)
    (hv : v < 2 ^ (8 * w)) (hrange : w * i + w ≤ b.length) :
    getWord w (setWord w b i v) i = v
    ∧ (setWord w b i v).length = b.length
    ∧ (∀ k, k < w * i ∨ w * i + w ≤ k →
        (setWord w b i v).getD k 0 = b.getD k 0)
    ∧ getWord w b i = ∑ m ∈ Finset.range w, b.getD (w * i + m) 0 * 256 ^ m := by
  have h256 : (256 : Nat) ^ w = 2 ^ (8 * w) := by
    rw [pow_mul]; norm_num
  refine ⟨?_, length_setWord v hrange,
    fun k hk => getD_setWord_outside v hrange hk, getWord_eq_sum hrange⟩
  rw [getWord_setWord_self v hrange, h256]
  exact Nat.mod_eq_of_lt hv

/-- Witness for C9 at a concrete buffer, index and value. -/
theorem hashdata_word_access_witness :
    ((4 : Nat) = 4 ∨ (4 : Nat) = 8) ∧ (0xdeadbeef : Nat) < 2 ^ (8 * 4)
    ∧ 4 * 2 + 4 ≤ (List.replicate 16 0 : Bytes).length
    ∧ (getWord 4 (setWord 4 (List.replicate 16 0) 2 0xdeadbeef) 2 = 0xdeadbeef
      ∧ (setWord 4 (List.replicate 16 0 : Bytes) 2 0xdeadbeef).length
          = (List.replicate 16 0 : Bytes).length
      ∧ (∀ k, k < 4 * 2 ∨ 4 * 2 + 4 ≤ k →
          (setWord 4 (List.replicate 16 0 : Bytes) 2 0xdeadbeef).getD k 0
            = (List.replicate 16 0 : Bytes).getD k 0)
      ∧ getWord 4 (List.replicate 16 0 : Bytes) 2
          = ∑ m ∈ Finset.range 4,
              (List.replicate 16 0 : Bytes).getD (4 * 2 + m) 0 * 256 ^ m) :=
  ⟨Or.inl rfl, by decide, by decide,
    hashdata_word_access (List.replicate 16 0) 2 0xdeadbeef 4 (Or.inl rfl)
      (by decide) (by decide)⟩

/-- C3: `fnv1 u v` is `((u * 0x01000193) mod 2^32) XOR v` for every pair of
32-bit values, the multiply wrapping silently; the function is total and its
result again fits in 32 bits (no error or panic state exists). -/
theorem fnv1_spec (u v : Nat) (_hu : u < 2 ^ 32) (hv : v < 2 ^ 32) :
    PowFishHash.fnv1 u v = ((u * 0x01000193) % 2 ^ 32) ^^^ v
    ∧ PowFishHash.fnv1 u v < 2 ^ 32 := by
  refine ⟨rfl, ?_⟩
  exact Nat.xor_lt_two_pow (Nat.mod_lt _ (by norm_num)) hv

/-- Witness for C3 at a pair that makes the multiply overflow 32 bits. -/
theorem fnv1_spec_witness :
    (0xffffffff : Nat) < 2 ^ 32 ∧ (5 : Nat) < 2 ^ 32
    ∧ (PowFishHash.fnv1 0xffffffff 5
        = ((0xffffffff * 0x01000193) % 2 ^ 32) ^^^ 5
      ∧ PowFishHash.fnv1 0xffffffff 5 < 2 ^ 32) :=
  ⟨by decide, by decide, fnv1_spec 0xffffffff 5 (by decide) (by decide)⟩

/-! ### C4 -/

theorem mixUpdate_getWord (f0 f1 f2 mix : Bytes) (hmix : mix.length = 128)
    {j : Nat} (hj : j < 16) :
    getWord 8 (PowFishHash.mixUpdate f0 f1 f2 mix) j
      = (getWord 8 f0 j * getWord 8 f1 j + getWord 8 f2 j) % 2 ^ 64 := by
  have h := (foldl_setWord_spec (w := 8)
    (fun j => ((getWord 8 f0 j * getWord 8 f1 j) % 2 ^ 64
      + getWord 8 f2 j) % 2 ^ 64) 16 mix (by rw [hmix])).2 j hj
  unfold PowFishHash.mixUpdate
  rw [h]
  have h2 : (256 : Nat) ^ 8 = 2 ^ 64 := by norm_num
  rw [h2, Nat.mod_mod_of_dvd _ dvd_rfl, Nat.mod_add_mod]

/-- C4: in every round of the mixing kernel, the new 64-bit mix word `j`
equals `fetch0.word64(j) * fetch1.word64(j) + fetch2.word64(j)` reduced
mod `2 ^ 64` — `fetch1`/`fetch2` being the modified fetches — with multiply
and add wrapping silently (the embedding is total; no panic state exists). -/
theorem kernel_mix_wraps (keccak : Bytes → Bytes) (mix : Bytes) (ctx : Context)
    (hmix : mix.length = 128) (j : Nat) (hj : j < 16) :
    getWord 8 (PowFishHash.kernelRound keccak (mix, ctx)).1 j =
      (getWord 8 (PowFishHash.lookup keccak ctx
          (getWord 4 mix 0 % FULL_DATASET_NUM_ITEMS)).1 j
        * getWord 8 (PowFishHash.fetchModify mix
            (PowFishHash.lookup keccak
              (PowFishHash.lookup keccak ctx
                (getWord 4 mix 0 % FULL_DATASET_NUM_ITEMS)).2
              (getWord 4 mix 4 % FULL_DATASET_NUM_ITEMS)).1) j
        + getWord 8 (PowFishHash.fetchXor mix
            (PowFishHash.lookup keccak
              (PowFishHash.lookup keccak
                (PowFishHash.lookup keccak ctx
                  (getWord 4 mix 0 % FULL_DATASET_NUM_ITEMS)).2
                (getWord 4 mix 4 % FULL_DATASET_NUM_ITEMS)).2
              (getWord 4 mix 8 % FULL_DATASET_NUM_ITEMS)).1) j)
      % 2 ^ 64 := by
  exact mixUpdate_getWord _ _ _ _ hmix hj

/-- Witness for C4 at a concrete zeroed mix, empty context and word 0. -/
theorem kernel_mix_wraps_witness :
    (List.replicate 128 0 : Bytes).length = 128 ∧ (0 : Nat) < 16
    ∧ (let mix : Bytes := List.replicate 128 0
       let ctx : Context := ⟨[], none⟩
       let kc : Bytes → Bytes := fun _ => []
       getWord 8 (PowFishHash.kernelRound kc (mix, ctx)).1 0 =
        (getWord 8 (PowFishHash.lookup kc ctx
            (getWord 4 mix 0 % FULL_DATASET_NUM_ITEMS)).1 0
          * getWord 8 (PowFishHash.fetchModify mix
              (PowFishHash.lookup kc
                (PowFishHash.lookup kc ctx
                  (getWord 4 mix 0 % FULL_DATASET_NUM_ITEMS)).2
                (getWord 4 mix 4 % FULL_DATASET_NUM_ITEMS)).1) 0
          + getWord 8 (PowFishHash.fetchXor mix
              (PowFishHash.lookup kc
                (PowFishHash.lookup kc
                  (PowFishHash.lookup kc ctx
                    (getWord 4 mix 0 % FULL_DATASET_NUM_ITEMS)).2
                  (getWord 4 mix 4 % FULL_DATASET_NUM_ITEMS)).2
                (getWord 4 mix 8 % FULL_DATASET_NUM_ITEMS)).1) 0)
        % 2 ^ 64) :=
  ⟨by simp, by decide,
    kernel_mix_wraps (fun _ => []) (List.replicate 128 0) ⟨[], none⟩
      (by simp) 0 (by decide)⟩

/-! ### C6 -/

theorem lookup_some_eq (keccak : Bytes → Bytes) (lc ds : List Bytes)
    (idx : Nat) :
    PowFishHash.lookup keccak ⟨lc, some ds⟩ idx =
      if getWord 8 (ds.getD idx zero1024) 0 = 0
      then (PowFishHash.calculate_dataset_item_1024 keccak lc idx,
        ⟨lc, some (ds.set idx
          (PowFishHash.calculate_dataset_item_1024 keccak lc idx))⟩)
      else (ds.getD idx zero1024, ⟨lc, some ds⟩) := rfl

theorem lookup_none_eq (keccak : Bytes → Bytes) (lc : List Bytes) (idx : Nat) :
    PowFishHash.lookup keccak ⟨lc, none⟩ idx =
      (PowFishHash.calculate_dataset_item_1024 keccak lc idx, ⟨lc, none⟩) := rfl

/-- C6: with a full dataset present, a zero first 64-bit word at `dataset[idx]`
makes `lookup` derive, store and return the item, and a nonzero first word
makes it return the stored entry with the context untouched; in both cases the
light cache and every dataset entry other than `idx` are unchanged. -/
theorem lookup_effect (keccak : Bytes → Bytes) (lc ds : List Bytes)
    (idx : Nat) :
    (PowFishHash.lookup keccak ⟨lc, some ds⟩ idx).2.light_cache = lc
    ∧ (PowFishHash.lookup keccak ⟨lc, some ds⟩ idx).1
        = (if getWord 8 (ds.getD idx zero1024) 0 = 0
           then PowFishHash.calculate_dataset_item_1024 keccak lc idx
           else ds.getD idx zero1024)
    ∧ (PowFishHash.lookup keccak ⟨lc, some ds⟩ idx).2.full_dataset
        = some (if getWord 8 (ds.getD idx zero1024) 0 = 0
                then ds.set idx
                  (PowFishHash.calculate_dataset_item_1024 keccak lc idx)
                else ds)
    ∧ ∀ j, j = idx ∨
        (if getWord 8 (ds.getD idx zero1024) 0 = 0
         then ds.set idx (PowFishHash.calculate_dataset_item_1024 keccak lc idx)
         else ds).getD j zero1024 = ds.getD j zero1024 := by
  rw [lookup_some_eq]
  by_cases hz : getWord 8 (ds.getD idx zero1024) 0 = 0
  · simp only [if_pos hz]
    refine ⟨trivial, trivial, trivial, fun j => ?_⟩
    rcases Decidable.em (j = idx) with hj | hj
    · exact Or.inl hj
    · right
      simp only [List.getD_eq_getElem?_getD,
        List.getElem?_set_ne (fun h => hj h.symm)]
  · simp only [if_neg hz]
    exact ⟨trivial, trivial, trivial, fun j => Or.inr trivial⟩

/-! ### C10 and C1 -/

theorem getWord_zero1024 : getWord 8 zero1024 0 = 0 := by decide

/-- C10: on a context with a full dataset, once the derived item for `idx` has
a nonzero first 64-bit word, `lookup` is idempotent after its first call: a
repeated call returns the identical `Hash1024` and the identical context. -/
theorem lookup_idempotent (keccak : Bytes → Bytes) (lc ds : List Bytes)
    (idx : Nat) (_h1 : idx < FULL_DATASET_NUM_ITEMS)
    (h2 : getWord 8
      (PowFishHash.calculate_dataset_item_1024 keccak lc idx) 0 ≠ 0) :
    PowFishHash.lookup keccak
        (PowFishHash.lookup keccak ⟨lc, some ds⟩ idx).2 idx
      = PowFishHash.lookup keccak ⟨lc, some ds⟩ idx := by
  rw [lookup_some_eq]
  by_cases hz : getWord 8 (ds.getD idx zero1024) 0 = 0
  · simp only [if_pos hz]
    rcases Nat.lt_or_ge idx ds.length with hlen | hlen
    · have hget : (ds.set idx
          (PowFishHash.calculate_dataset_item_1024 keccak lc idx)).getD idx
            zero1024
          = PowFishHash.calculate_dataset_item_1024 keccak lc idx := by
        simp [List.getD_eq_getElem?_getD, List.getElem?_set_self hlen]
      rw [lookup_some_eq, hget, if_neg h2]
    · have hset : ds.set idx
          (PowFishHash.calculate_dataset_item_1024 keccak lc idx) = ds :=
        List.set_eq_of_length_le hlen
      rw [hset, lookup_some_eq,
        List.getD_eq_default _ _ hlen, if_pos getWord_zero1024, hset]
  · simp only [if_neg hz]
    rw [lookup_some_eq, if_neg hz]

/-- Witness for C10 with a constant nonzero keccak model and an empty dataset. -/
theorem lookup_idempotent_witness :
    (0 : Nat) < FULL_DATASET_NUM_ITEMS
    ∧ getWord 8 (PowFishHash.calculate_dataset_item_1024
        (fun _ => List.replicate 64 1) [] 0) 0 ≠ 0
    ∧ PowFishHash.lookup (fun _ => List.replicate 64 1)
        (PowFishHash.lookup (fun _ => List.replicate 64 1) ⟨[], some []⟩ 0).2 0
      = PowFishHash.lookup (fun _ => List.replicate 64 1) ⟨[], some []⟩ 0 :=
  ⟨by decide, by decide,
    lookup_idempotent (fun _ => List.replicate 64 1) [] [] 0 (by decide)
      (by decide)⟩

theorem dataset_inv_zero (keccak : Bytes → Bytes) (lc : List Bytes) :
    DatasetInv keccak lc (List.replicate FULL_DATASET_NUM_ITEMS zero1024) := by
  intro j
  left
  rcases Nat.lt_or_ge j FULL_DATASET_NUM_ITEMS with h | h
  · simp [List.getD_eq_getElem?_getD, List.getElem?_replicate_of_lt h]
  · exact List.getD_eq_default _ _ (by simpa using h)

theorem lookup_fst_of_inv {keccak : Bytes → Bytes} {lc ds : List Bytes}
    (idx : Nat) (hinv : DatasetInv keccak lc ds) :
    (PowFishHash.lookup keccak ⟨lc, some ds⟩ idx).1
      = PowFishHash.calculate_dataset_item_1024 keccak lc idx := by
  rw [lookup_some_eq]
  by_cases hz : getWord 8 (ds.getD idx zero1024) 0 = 0
  · rw [if_pos hz]
  · rw [if_neg hz]
    rcases hinv idx with h | h
    · rw [h] at hz
      exact absurd getWord_zero1024 hz
    · exact h

theorem lookup_snd_of_inv {keccak : Bytes → Bytes} {lc ds : List Bytes}
    (idx : Nat) (hinv : DatasetInv keccak lc ds) :
    ∃ ds2, (PowFishHash.lookup keccak ⟨lc, some ds⟩ idx).2 = ⟨lc, some ds2⟩
      ∧ DatasetInv keccak lc ds2 := by
  rw [lookup_some_eq]
  by_cases hz : getWord 8 (ds.getD idx zero1024) 0 = 0
  · rw [if_pos hz]
    refine ⟨ds.set idx
      (PowFishHash.calculate_dataset_item_1024 keccak lc idx), rfl, fun j => ?_⟩
    rcases Decidable.em (j = idx) with hj | hj
    · subst hj
      rcases Nat.lt_or_ge j ds.length with hl | hl
      · right
        simp [List.getD_eq_getElem?_getD, List.getElem?_set_self hl]
      · rw [List.set_eq_of_length_le hl]
        exact hinv j
    · have hfr : (ds.set idx
          (PowFishHash.calculate_dataset_item_1024 keccak lc idx)).getD j
            zero1024 = ds.getD j zero1024 := by
        simp only [List.getD_eq_getElem?_getD,
          List.getElem?_set_ne (fun h => hj h.symm)]
      rw [hfr]
      exact hinv j
  · rw [if_neg hz]
    exact ⟨ds, rfl, hinv⟩

theorem runLookups_inv {keccak : Bytes → Bytes} {lc : List Bytes} :
    ∀ (l : List Nat) (ds : List Bytes), DatasetInv keccak lc ds →
      ∃ ds2, runLookups keccak ⟨lc, some ds⟩ l = ⟨lc, some ds2⟩
        ∧ DatasetInv keccak lc ds2 := by
  intro l
  induction l with
  | nil => exact fun ds h => ⟨ds, rfl, h⟩
  | cons a l ih =>
    intro ds h
    obtain ⟨ds1, heq, hinv1⟩ := lookup_snd_of_inv a h
    unfold runLookups
    rw [List.foldl_cons, heq]
    exact ih ds1 hinv1

/-- C1: for any in-range index, `lookup` on a full-dataset context reached
from the all-zero initial dataset by any number of prior lookups returns the
same `Hash1024` as `lookup` on a dataset-free context over the same light
cache, namely `calculate_dataset_item_1024 light_cache idx`. -/
theorem lookup_cached_eq_uncached (keccak : Bytes → Bytes) (lc : List Bytes)
    (idxs : List Nat) (idx : Nat) (_h : idx < FULL_DATASET_NUM_ITEMS) :
    (PowFishHash.lookup keccak
        (runLookups keccak
          ⟨lc, some (List.replicate FULL_DATASET_NUM_ITEMS zero1024)⟩ idxs)
        idx).1
      = PowFishHash.calculate_dataset_item_1024 keccak lc idx
    ∧ (PowFishHash.lookup keccak ⟨lc, none⟩ idx).1
      = PowFishHash.calculate_dataset_item_1024 keccak lc idx := by
  obtain ⟨ds2, heq, hinv⟩ :=
    runLookups_inv idxs _ (dataset_inv_zero keccak lc)
  constructor
  · rw [heq]
    exact lookup_fst_of_inv idx hinv
  · rw [lookup_none_eq]

/-- Witness for C1 at index 0 with no prior lookups. -/
theorem lookup_cached_eq_uncached_witness :
    (0 : Nat) < FULL_DATASET_NUM_ITEMS
    ∧ ((PowFishHash.lookup (fun _ => List.replicate 64 0)
        (runLookups (fun _ => List.replicate 64 0)
          ⟨[], some (List.replicate FULL_DATASET_NUM_ITEMS zero1024)⟩ []) 0).1
      = PowFishHash.calculate_dataset_item_1024
          (fun _ => List.replicate 64 0) [] 0
      ∧ (PowFishHash.lookup (fun _ => List.replicate 64 0) ⟨[], none⟩ 0).1
      = PowFishHash.calculate_dataset_item_1024
          (fun _ => List.replicate 64 0) [] 0) :=
  ⟨by decide, lookup_cached_eq_uncached _ _ [] 0 (by decide)⟩

/-! ### C5 -/

theorem wrap_sub_index {i : Nat} (hi : i < LIGHT_CACHE_NUM_ITEMS) :
    ((LIGHT_CACHE_NUM_ITEMS + ((i + (2 ^ 32 - 1)) % 2 ^ 32)) % 2 ^ 32)
        % LIGHT_CACHE_NUM_ITEMS
      = (LIGHT_CACHE_NUM_ITEMS + i - 1) % LIGHT_CACHE_NUM_ITEMS := by
  unfold LIGHT_CACHE_NUM_ITEMS at *
  rcases i with _ | k
  · decide
  · have hp : (2 : Nat) ^ 32 = 4294967296 := by norm_num
    rw [hp]
    have h1 : (k + 1 + (4294967296 - 1)) % 4294967296 = k := by
      have he : k + 1 + (4294967296 - 1) = k + 4294967296 := by omega
      rw [he, Nat.add_mod_right]
      exact Nat.mod_eq_of_lt (by omega)
    rw [h1, Nat.mod_eq_of_lt (by omega : 1179641 + k < 4294967296)]
    congr 1

theorem lightRound_eq_ref (keccak : Bytes → Bytes) (c : List Bytes) :
    lightRound keccak c = lightRoundRef keccak c := by
  unfold lightRound lightRoundRef
  refine foldl_congr_mem _ _ fun i hi acc => ?_
  have hiN : i < LIGHT_CACHE_NUM_ITEMS := List.mem_range.mp hi
  simp only [wrap_sub_index hiN]

theorem lightInit_eq_map (keccak : Bytes → Bytes) :
    ∀ (n : Nat) (x : Bytes),
      lightInit keccak x n = (List.range n).map fun i => keccak^[i] x := by
  intro n
  induction n with
  | zero => intro x; rfl
  | succ n ih =>
    intro x
    show x :: lightInit keccak (keccak x) n = _
    rw [List.range_succ_eq_map, List.map_cons, List.map_map,
      Function.iterate_zero_apply, ih (keccak x)]
    congr 1

/-- C5: `build_light_cache` over the zeroed `N`-entry buffer produces exactly
the spec's reference sequence: entry 0 the keccak hash of the fixed seed,
entry `i` the hash of entry `i-1`, then exactly 3 sequential in-place passes
with `v` the first word of the current entry mod `N` and
`w = (N + i - 1) mod N`, reading already-updated entries of the same pass. -/
theorem build_light_cache_correct (keccak : Bytes → Bytes) :
    Context.build_light_cache keccak
        (List.replicate LIGHT_CACHE_NUM_ITEMS zero512)
      = lightCacheRef keccak := by
  unfold Context.build_light_cache lightCacheRef
  rw [List.length_replicate, Nat.min_self,
    List.drop_eq_nil_of_le (by simp), List.append_nil, lightInit_eq_map]
  exact foldl_congr_mem _ _ fun x hx acc => lightRound_eq_ref keccak acc

/-! ### C7 -/

theorem lightInit_length (keccak : Bytes → Bytes) :
    ∀ (n : Nat) (x : Bytes), (lightInit keccak x n).length = n := by
  intro n
  induction n with
  | zero => intro x; rfl
  | succ n ih => intro x; simp [lightInit, ih]

theorem lightRound_length (keccak : Bytes → Bytes) (c : List Bytes) :
    (lightRound keccak c).length = c.length := by
  unfold lightRound
  refine foldl_invariant (P := fun b : List Bytes => b.length = c.length)
    _ _ rfl fun x hx acc hacc => ?_
  dsimp only
  rw [List.length_set]
  exact hacc

theorem build_light_cache_length (keccak : Bytes → Bytes) :
    (Context.build_light_cache keccak
        (List.replicate LIGHT_CACHE_NUM_ITEMS zero512)).length
      = LIGHT_CACHE_NUM_ITEMS := by
  unfold Context.build_light_cache
  refine foldl_invariant
    (P := fun b : List Bytes => b.length = LIGHT_CACHE_NUM_ITEMS) _ _ ?_
    fun x hx acc hacc => by dsimp only; rw [lightRound_length]; exact hacc
  simp [lightInit_length]

theorem context_new_light_cache (keccak : Bytes → Bytes) (full : Bool) :
    (Context.new keccak full).light_cache
      = Context.build_light_cache keccak
          (List.replicate LIGHT_CACHE_NUM_ITEMS zero512) := by
  unfold Context.new
  dsimp only

theorem context_new_full_dataset (keccak : Bytes → Bytes) (full : Bool) :
    (Context.new keccak full).full_dataset
      = (if full then some (List.replicate FULL_DATASET_NUM_ITEMS zero1024)
         else none) := by
  unfold Context.new
  dsimp only

/-- C7: `Context::new` builds the light cache deterministically with exactly
1,179,641 entries; the full dataset is an all-zero sequence of exactly
37,748,717 `Hash1024` entries when `full` is true, and absent otherwise. -/
theorem context_new_spec (keccak : Bytes → Bytes) (full : Bool) :
    (Context.new keccak full).light_cache
        = Context.build_light_cache keccak
            (List.replicate LIGHT_CACHE_NUM_ITEMS zero512)
    ∧ (Context.new keccak full).light_cache.length = 1179641
    ∧ (Context.new keccak full).full_dataset
        = (if full then some (List.replicate FULL_DATASET_NUM_ITEMS zero1024)
           else none)
    ∧ (List.replicate FULL_DATASET_NUM_ITEMS zero1024 : List Bytes).length
        = 37748717
    ∧ ∀ j, (List.replicate FULL_DATASET_NUM_ITEMS zero1024 : List Bytes).getD
        j zero1024 = List.replicate 128 0 := by
  refine ⟨context_new_light_cache keccak full, ?_,
    context_new_full_dataset keccak full,
    by rw [List.length_replicate]; rfl, fun j => ?_⟩
  · rw [context_new_light_cache keccak full, build_light_cache_length keccak]
    rfl
  · rcases Nat.lt_or_ge j FULL_DATASET_NUM_ITEMS with h | h
    · simp [List.getD_eq_getElem?_getD, List.getElem?_replicate_of_lt h,
        zero1024]
    · rw [List.getD_eq_default _ _ (by simpa using h)]
      rfl

/-! ### C8 -/

theorem collapse_length (mix : Bytes) :
    (PowFishHash.collapse mix).length = 32 := by
  unfold PowFishHash.collapse
  refine foldl_invariant (P := fun b : Bytes => b.length = 32) _ _ rfl
    fun x hx acc hacc => ?_
  obtain ⟨k, hk, hxk⟩ := List.mem_map.mp hx
  have hk8 : k < 8 := List.mem_range.mp hk
  subst hxk
  have hdiv : k * 4 / 4 = k := by omega
  have hle : 4 * (k * 4 / 4) + 4 ≤ acc.length := by rw [hdiv, hacc]; omega
  rw [length_setWord _ hle]
  exact hacc

theorem fishhash_kernel_length (keccak : Bytes → Bytes) (ctx : Context)
    (seed : Bytes) :
    (PowFishHash.fishhash_kernel keccak ctx seed).1.length = 32 := by
  unfold PowFishHash.fishhash_kernel
  exact collapse_length _

theorem writeRange_concat {s k : Bytes} (hs : s.length = 64)
    (hkk : k.length = 32) :
    writeRange (writeRange (List.replicate 96 0) 0 s) 64 k = s ++ k := by
  unfold writeRange
  rw [hs, hkk, List.take_zero, List.nil_append]
  have hd : (List.replicate 96 (0 : Nat)).drop (0 + 64)
      = List.replicate 32 0 := by decide
  rw [hd, List.take_left' hs,
    List.drop_eq_nil_of_le
      (by simp [hs] : (s ++ List.replicate 32 0).length ≤ 64 + 32),
    List.append_nil]

/-- C8: `PowFishHash::hash` outputs the 32-byte blake3 hash of the 96-byte
concatenation `seed ++ kernel_output`, where `seed` is the 64-byte blake3
extendable output of the header and `kernel_output` the kernel result. -/
theorem fishhash_hash_structure (keccak blakeXof blake3 : Bytes → Bytes)
    (ctx : Context) (header : Bytes) (h : (blakeXof header).length = 64) :
    (PowFishHash.hash keccak blakeXof blake3 ctx header).1
      = blake3 (blakeXof header
          ++ (PowFishHash.fishhash_kernel keccak ctx (blakeXof header)).1)
    ∧ (blakeXof header
        ++ (PowFishHash.fishhash_kernel keccak ctx (blakeXof header)).1).length
      = 96 := by
  have hk := fishhash_kernel_length keccak ctx (blakeXof header)
  constructor
  · show blake3
        (writeRange (writeRange (List.replicate 96 0) 0 (blakeXof header)) 64
          (PowFishHash.fishhash_kernel keccak ctx (blakeXof header)).1)
      = _
    rw [writeRange_concat h hk]
  · rw [List.length_append, h, hk]

/-- Witness for C8 with concrete primitive models and an empty header. -/
theorem fishhash_hash_structure_witness :
    ((fun _ => List.replicate 64 3 : Bytes → Bytes) []).length = 64
    ∧ ((PowFishHash.hash (fun _ => List.replicate 64 0)
          (fun _ => List.replicate 64 3) (fun b => b.take 32) ⟨[], none⟩ []).1
        = (fun b => b.take 32)
            ((fun _ => List.replicate 64 3 : Bytes → Bytes) []
              ++ (PowFishHash.fishhash_kernel (fun _ => List.replicate 64 0)
                    ⟨[], none⟩
                    ((fun _ => List.replicate 64 3 : Bytes → Bytes) [])).1)
      ∧ ((fun _ => List.replicate 64 3 : Bytes → Bytes) []
          ++ (PowFishHash.fishhash_kernel (fun _ => List.replicate 64 0)
                ⟨[], none⟩
                ((fun _ => List.replicate 64 3 : Bytes → Bytes) [])).1).length
        = 96) :=
  ⟨by simp, fishhash_hash_structure (fun _ => List.replicate 64 0)
    (fun _ => List.replicate 64 3) (fun b => b.take 32) ⟨[], none⟩ []
    (by simp)⟩

end PowHashers
